import Mathlib

/-!
# Shallow embedding of the repoctl dependency-graph core

This file embeds the graph data structure (`src/unnamed/part_000`, Go package
`graph`) and the resolution factory (`src/pacman/graph/factory.go`) into Lean,
and settles the frozen claims about them.

Modelling conventions:
* Go maps become Lean functions `κ → Option ν` updated pointwise, except the
  per-node edge map, which becomes an association list so that "at most one
  edge per ordered pair" is a provable statement about entries.
* Go `panic` (the precondition checks of `AddNode`, and assignment into a
  `nil` inner map in `AddEdgeFromTo`) becomes `Option`, with `none` for the
  panic.
* Go slices become Lean lists; `make([]T, n)` is `List.replicate n default`,
  `append` is `++ [x]`.
* The iteration `for k := range unavailable` over a Go map has unspecified
  order; we model `unavailable` as an insertion-ordered duplicate-free list,
  which fixes one admissible order.  No claim below depends on that order.
* The AUR network call `aur.ReadAll` is external to the repository; it is a
  parameter (an oracle) of the resolution functions.  Its Go signature
  returns both a package list and an error, which may carry a
  `NotFoundError` with the missing names.
-/

/-- Package origin tag (`pacman.UnknownOrigin` etc.). -/
inductive Origin where
  | localO
  | syncO
  | remoteO
  | unknownO
  | databaseO
deriving DecidableEq, Repr

/-- The package record capability the core consumes: name, origin and the two
dependency name lists (`PkgName`, `PkgDepends`, `PkgMakeDepends`). -/
structure Package where
  name : String
  origin : Origin
  depends : List String
  makeDepends : List String
deriving DecidableEq, Repr

namespace RGraph

/-- `Node` from `part_000`: a graph-local integer identifier wrapping one
package record. -/
structure Node where
  id : Nat
  pkg : Package
deriving DecidableEq, Repr

/-- `Edge` from `part_000`: a directed relation between two nodes. -/
structure Edge where
  from_ : Node
  to_ : Node
deriving DecidableEq, Repr

/-- `Graph` from `part_000`.  The Go struct's maps `names`, `nodeIDs`,
`edgesFrom`, `edgesTo` become functions to `Option`; the two-level map
`edges map[int]map[int]graph.Edge` becomes a function to an optional
association list (`none` models an absent inner map, i.e. Go's `nil` map). -/
structure Graph where
  names : String → Option Node
  nodes : List Node
  nodeIDs : Nat → Option Node
  edgesFrom : Nat → Option (List Node)
  edgesTo : Nat → Option (List Node)
  edges : Nat → Option (List (Nat × Edge))
  nextID : Nat

/-- `NewGraph()`: the empty graph. -/
def emptyGraph : Graph where
  names := fun _ => none
  nodes := []
  nodeIDs := fun _ => none
  edgesFrom := fun _ => none
  edgesTo := fun _ => none
  edges := fun _ => none
  nextID := 0

namespace Graph

/-- `Has`: whether the node's identifier exists within the graph. -/
def has (g : Graph) (n : Node) : Bool :=
  (g.nodeIDs n.id).isSome

/-- `HasName`: whether a package with the given name exists within the graph. -/
def hasName (g : Graph) (name : String) : Bool :=
  (g.names name).isSome

/-- `NodeWithName`: the node with the given name, or `nil` (here `none`). -/
def nodeWithName (g : Graph) (name : String) : Option Node :=
  g.names name

/-- `Nodes`: all the nodes in the graph, insertion order. -/
def allNodes (g : Graph) : List Node :=
  g.nodes

/-- `From`: `return g.edgesFrom[v.ID()]` — a missing key reads as the `nil`
slice, i.e. the empty sequence. -/
def fromSeq (g : Graph) (v : Node) : List Node :=
  (g.edgesFrom v.id).getD []

/-- `To`: `return g.edgesTo[v.ID()]`. -/
def toSeq (g : Graph) (v : Node) : List Node :=
  (g.edgesTo v.id).getD []

/-- `HasEdgeFromTo`: linear scan of `g.edgesFrom[u.ID()]` for `v`. -/
def hasEdgeFromTo (g : Graph) (u v : Node) : Bool :=
  (g.fromSeq u).any (fun n => n = v)

/-- `HasEdgeBetween`: either direction. -/
def hasEdgeBetween (g : Graph) (u v : Node) : Bool :=
  g.hasEdgeFromTo u v || g.hasEdgeFromTo v u

/-- Association-list lookup standing in for a Go map read. -/
def alookup (l : List (Nat × Edge)) (k : Nat) : Option Edge :=
  (l.find? (fun p => p.1 = k)).map Prod.snd

/-- Association-list write standing in for a Go map assignment: replaces the
entry when the key is present, appends otherwise, so each key has at most one
entry — mirroring a Go map's unique keys. -/
def aset (l : List (Nat × Edge)) (k : Nat) (e : Edge) : List (Nat × Edge) :=
  if (l.find? (fun p => p.1 = k)).isSome then
    l.map (fun p => if p.1 = k then (k, e) else p)
  else
    l ++ [(k, e)]

/-- `Edge(u, v)`: `g.edges[u.ID()][v.ID()]` (reading a `nil` inner map yields
the zero value, here `none`). -/
def edgeGet (g : Graph) (u v : Node) : Option Edge :=
  match g.edges u.id with
  | none => none
  | some m => alookup m v.id

/-- `NewNodeID`: pre-increments `nextID` and returns it (first ID is 1). -/
def newNodeID (g : Graph) : Graph × Nat :=
  ({ g with nextID := g.nextID + 1 }, g.nextID + 1)

/-- `NewNode`: allocates the next identifier and wraps the package; does not
insert the node. -/
def newNode (g : Graph) (p : Package) : Graph × Node :=
  let (g', id) := g.newNodeID
  (g', { id := id, pkg := p })

/-- `AddNode`: panics (here `none`) if the name or the identifier is already
present; otherwise records the node and initializes its adjacency buckets. -/
def addNode (g : Graph) (v : Node) : Option Graph :=
  if g.hasName v.pkg.name then none
  else if g.has v then none
  else some
    { g with
      names := fun s => if s = v.pkg.name then some v else g.names s
      nodes := g.nodes ++ [v]
      nodeIDs := fun i => if i = v.id then some v else g.nodeIDs i
      edgesFrom := fun i => if i = v.id then some [] else g.edgesFrom i
      edgesTo := fun i => if i = v.id then some [] else g.edgesTo i
      edges := fun i => if i = v.id then some [] else g.edges i }

/-- `AddEdgeFromTo`: the Go body is

```
g.edges[uid][vid] = &Edge{from: u.(*Node), to: v.(*Node)}
g.edgesFrom[uid] = append(g.edgesFrom[uid], u)
g.edgesTo[vid] = append(g.edgesTo[vid], v)
```

Assigning into `g.edges[uid]` when that inner map is `nil` (the from-node was
never added) panics in Go, modelled as `none`.  Note that the source appends
`u` (not `v`) to `edgesFrom[uid]` and `v` (not `u`) to `edgesTo[vid]`; the
embedding reproduces this faithfully. -/
def addEdgeFromTo (g : Graph) (u v : Node) : Option Graph :=
  match g.edges u.id with
  | none => none
  | some m => some
    { g with
      edges := fun i => if i = u.id then some (aset m v.id ⟨u, v⟩) else g.edges i
      edgesFrom := fun i =>
        if i = u.id then some ((g.edgesFrom u.id).getD [] ++ [u]) else g.edgesFrom i
      edgesTo := fun i =>
        if i = v.id then some ((g.edgesTo v.id).getD [] ++ [v]) else g.edgesTo i }

end Graph

end RGraph

namespace RGraph

/-!
## Resolution factory (`src/pacman/graph/factory.go`)

`Factory` holds the two lookup maps, four policy flags and the AUR-call
counter.  The loading of the maps from the pacman databases
(`NewFactory`) is out of scope; resolution only reads them.
-/

/-- Errors returned by the external AUR lookup: a `NotFoundError` carrying the
missing names, or any other (transport) failure. -/
inductive AURError where
  | notFound (names : List String)
  | transportFail
deriving DecidableEq, Repr

/-- `aur.IsNotFound`. -/
def AURError.isNotFound : AURError → Bool
  | .notFound _ => true
  | .transportFail => false

/-- The external `aur.ReadAll` operation: given a name list, a package list
and an optional error (a `NotFoundError` may accompany the packages that were
found). -/
def ReadAllOracle : Type :=
  List String → List Package × Option AURError

/-- `Factory`, minus the call counter, which resolution threads explicitly.
`localPkgs` and `syncPkgs` are the name-keyed maps `f.local` and `f.sync`. -/
structure Factory where
  localPkgs : String → Option Package
  syncPkgs : String → Option Package
  skipInstalled : Bool
  truncate : Bool
  noUnknown : Bool
  depFunc : Package → List String

/-- The default dependency selector installed by `NewFactory`:
`PkgDepends() ++ PkgMakeDepends()`. -/
def defaultDepFunc (p : Package) : List String :=
  p.depends ++ p.makeDepends

/-- The per-layer scan state of `NewGraph`: the graph, the `new` frontier
being accumulated, the `unavailable` name set (insertion-ordered,
duplicate-free) and the `pending` edges map. -/
structure Scan where
  g : Graph
  newFrontier : List Node
  unavailable : List String
  pending : String → List Node

/-- One dependency `d` of frontier node `v` (the body of the inner loop of
`NewGraph`, factory.go lines 142–171).  `none` models a Go panic.  Note that
in the sync branch the source calls `g.NewNode(p)` and `g.AddEdgeFromTo(v, u)`
but never `g.AddNode(u)`; the embedding reproduces this. -/
def processDep (f : Factory) (v : Node) (s : Scan) (d : String) : Option Scan :=
  if s.g.hasName d then
    match s.g.nodeWithName d with
    | some u => (s.g.addEdgeFromTo v u).map (fun g' => { s with g := g' })
    | none => none
  else if f.skipInstalled && (f.localPkgs d).isSome then
    some s
  else
    match f.syncPkgs d with
    | some p =>
      let gu := s.g.newNode p
      let new' := if f.truncate then s.newFrontier else s.newFrontier ++ [gu.2]
      (gu.1.addEdgeFromTo v gu.2).map
        (fun g' => { s with g := g', newFrontier := new' })
    | none =>
      some { s with
        unavailable :=
          if d ∈ s.unavailable then s.unavailable else s.unavailable ++ [d]
        pending := fun k =>
          if k = d then s.pending d ++ [v] else s.pending k }

/-- All dependencies of one frontier node, in order (`f.depFunc(v.AnyPackage)`). -/
def processNode (f : Factory) (s : Scan) (v : Node) : Option Scan :=
  (f.depFunc v.pkg).foldlM (processDep f v) s

/-- The whole frontier scan (factory.go lines 141–172). -/
def processFrontier (f : Factory) (s : Scan) (lst : List Node) : Option Scan :=
  lst.foldlM (processNode f) s

/-- Lines 185–188: `fromAUR := make([]string, len(unavailable))` followed by
`append`s — the `make` with a length (not capacity) fills the slice with
`len(unavailable)` empty strings before the names are appended. -/
def fromAURList (unavailable : List String) : List String :=
  List.replicate unavailable.length "" ++ unavailable

/-- `addFetchedPkg` (factory.go lines 175–182): wrap the package in a new
node, append it to the `new` frontier, `AddNode` it, and connect an edge from
every pending parent.  `none` models a panic inside `AddNode` or
`AddEdgeFromTo`. -/
def addFetchedPkg (pending : String → List Node) (st : Graph × List Node)
    (p : Package) : Option (Graph × List Node) :=
  let gu := st.1.newNode p
  let new' := st.2 ++ [gu.2]
  (gu.1.addNode gu.2).bind (fun g2 =>
    ((pending p.name).foldlM (fun (gg : Graph) v => gg.addEdgeFromTo v gu.2) g2).map
      (fun g3 => (g3, new')))

/-- The synthesized placeholder of the not-found branch (lines 198–203). -/
def unknownPkg (name : String) : Package :=
  { name := name, origin := .unknownO, depends := [], makeDepends := [] }

/-- Result of one iteration of the main loop: the next graph/frontier plus
the updated AUR-call counter, an error return (`return nil, err`), or a
panic. -/
inductive LRes where
  | ok (g : Graph) (newFrontier : List Node) (aurCalls : Nat)
  | error (e : AURError)
  | panicked

/-- The scan state at the top of a loop iteration (factory.go lines
136–138): fresh `new`, `unavailable` and `pending`, current graph `g`. -/
def initScan (g : Graph) : Scan :=
  { g := g, newFrontier := [], unavailable := [], pending := fun _ => [] }

/-- One full iteration of the `for len(lst) == 0` loop body (factory.go lines
136–213): scan the frontier, issue the single batched AUR call on
`fromAURList`, increment the counter, then integrate results — placeholders
for not-found names when allowed, error return otherwise, and always the
fetched packages. -/
def layerStep (f : Factory) (readAll : ReadAllOracle) (aurCalls : Nat)
    (g : Graph) (lst : List Node) : LRes :=
  match processFrontier f (initScan g) lst with
  | none => .panicked
  | some s =>
    let res := readAll (fromAURList s.unavailable)
    let calls := aurCalls + 1
    let integrate : Graph × List Node → LRes := fun st =>
      match res.1.foldlM (addFetchedPkg s.pending) st with
      | none => .panicked
      | some st' => .ok st'.1 st'.2 calls
    match res.2 with
    | some e =>
      if !f.noUnknown && e.isNotFound then
        match e with
        | .notFound names =>
          match names.foldlM (fun st n => addFetchedPkg s.pending st (unknownPkg n))
              (s.g, s.newFrontier) with
          | none => .panicked
          | some st => integrate st
        | .transportFail => .panicked
      else .error e
    | none => integrate (s.g, s.newFrontier)

/-- Result of a whole `NewGraph` run: the graph and final counter, an error,
a panic, or fuel exhaustion (the run did not terminate within `fuel`
iterations of the main loop). -/
inductive GRes where
  | ok (g : Graph) (aurCalls : Nat)
  | error (e : AURError)
  | panicked
  | fuelOut

/-- The main loop of `NewGraph` (factory.go lines 135–214).  The source's
loop condition is literally `for len(lst) == 0` — the loop runs only while
the frontier is EMPTY and exits as soon as it is non-empty.  The embedding
keeps that condition; `fuel` bounds the number of iterations so the
definition is total, with `fuelOut` reporting that the bound was hit while
the loop was still running. -/
def newGraphLoop (f : Factory) (readAll : ReadAllOracle) :
    Nat → Nat → Graph → List Node → GRes
  | fuel, calls, g, lst =>
    if lst.length = 0 then
      match fuel with
      | 0 => .fuelOut
      | fuel' + 1 =>
        match layerStep f readAll calls g lst with
        | .ok g' new' calls' => newGraphLoop f readAll fuel' calls' g' new'
        | .error e => .error e
        | .panicked => .panicked
    else .ok g calls

/-- One seed package (factory.go lines 128–132): `NewNode`, append to `lst`,
`AddNode`. -/
def seedStep (st : Graph × List Node) (p : Package) : Option (Graph × List Node) :=
  let gv := st.1.newNode p
  (gv.1.addNode gv.2).map (fun g' => (g', st.2 ++ [gv.2]))

/-- Seeding (factory.go lines 125–132): every seed package in order. -/
def seedGraph (seeds : List Package) : Option (Graph × List Node) :=
  seeds.foldlM seedStep (emptyGraph, [])

/-- `NewGraph` (factory.go lines 124–217), with the external AUR call as an
oracle and explicit fuel for the main loop. -/
def newGraphGo (f : Factory) (readAll : ReadAllOracle) (fuel : Nat)
    (seeds : List Package) : GRes :=
  match seedGraph seeds with
  | none => .panicked
  | some st => newGraphLoop f readAll fuel 0 st.1 st.2

end RGraph

namespace RGraph

/-- Projection of a successful loop-iteration result. -/
def LRes.okParts : LRes → Option (Graph × List Node × Nat)
  | .ok g l c => some (g, l, c)
  | _ => none

/-- Projection of a successful `NewGraph` result. -/
def GRes.okParts : GRes → Option (Graph × Nat)
  | .ok g c => some (g, c)
  | _ => none

/-- The oracle of a reachable, well-behaved AUR: every requested name is
found with an empty record (the concrete responses are irrelevant to the
claims that use this oracle). -/
def oracleEmpty : ReadAllOracle := fun _ => ([], none)

/-- An AUR oracle failing with a transport error. -/
def oracleTransport : ReadAllOracle := fun _ => ([], some .transportFail)

/-- An AUR oracle that reports the single name "ghost" as not found. -/
def oracleGhost : ReadAllOracle := fun _ => ([], some (.notFound ["ghost"]))

/-! Concrete fixtures used by the witnesses and counterexamples. -/

/-- Package "a", depending on "b". -/
def pa : Package := ⟨"a", .remoteO, ["b"], []⟩

/-- Package "b", available in sync, depending on "a". -/
def pb : Package := ⟨"b", .syncO, ["a"], []⟩

/-- The node `NewNode` allocates for `pa` on a fresh graph. -/
def na : Node := ⟨1, pa⟩

/-- The node `NewNode` allocates for `pb` next. -/
def nb : Node := ⟨2, pb⟩

/-- The graph holding exactly `na` then `nb`. -/
def ga : Graph := (emptyGraph.addNode na).getD emptyGraph

/-- The graph holding exactly `na` then `nb`. -/
def gab : Graph := (ga.addNode nb).getD emptyGraph

/-- `gab` after one `AddEdgeFromTo(na, nb)`. -/
def gab1 : Graph := (gab.addEdgeFromTo na nb).getD emptyGraph

/-- `gab1` after a second, identical `AddEdgeFromTo(na, nb)`. -/
def gab2 : Graph := (gab1.addEdgeFromTo na nb).getD emptyGraph

/-- A factory with empty local and sync maps and default policy. -/
def facNone : Factory :=
  { localPkgs := fun _ => none
    syncPkgs := fun _ => none
    skipInstalled := false
    truncate := false
    noUnknown := false
    depFunc := defaultDepFunc }

/-- A factory whose sync map offers exactly `pb`. -/
def facB : Factory := { facNone with syncPkgs := fun s => if s = "b" then some pb else none }

end RGraph

namespace RGraph

/-! ## Shared lemmas about the graph operations -/

theorem find_map_replace_isSome (t : List (Nat × Edge)) (k k' : Nat) (e : Edge) :
    ((t.map (fun p => if p.1 = k then (k, e) else p)).find?
        (fun p => p.1 = k')).isSome
    = (t.find? (fun p => p.1 = k')).isSome := by
  induction t with
  | nil => rfl
  | cons a t ih =>
    by_cases ha : a.1 = k'
    · have hfa : ((if a.1 = k then (k, e) else a) : Nat × Edge).1 = k' := by
        by_cases hak : a.1 = k
        · rw [if_pos hak]
          rw [hak] at ha
          exact ha
        · rw [if_neg hak]
          exact ha
      rw [List.map_cons, List.find?_cons_of_pos _ (by simpa using hfa),
        List.find?_cons_of_pos _ (by simpa using ha)]
      rfl
    · have hfa : ¬ ((if a.1 = k then (k, e) else a) : Nat × Edge).1 = k' := by
        by_cases hak : a.1 = k
        · rw [if_pos hak]
          intro hkk
          rw [hak] at ha
          exact ha hkk
        · rw [if_neg hak]
          exact ha
      rw [List.map_cons, List.find?_cons_of_neg _ (by simpa using hfa),
        List.find?_cons_of_neg _ (by simpa using ha), ih]

theorem find_map_replace_self (t : List (Nat × Edge)) (k : Nat) (e : Edge)
    (h : (t.find? (fun p => p.1 = k)).isSome = true) :
    (t.map (fun p => if p.1 = k then (k, e) else p)).find? (fun p => p.1 = k)
      = some (k, e) := by
  induction t with
  | nil => simp at h
  | cons a t ih =>
    by_cases ha : a.1 = k
    · rw [List.map_cons, if_pos ha, List.find?_cons_of_pos _ (by simp)]
    · rw [List.find?_cons_of_neg _ (by simpa using ha)] at h
      rw [List.map_cons, if_neg ha, List.find?_cons_of_neg _ (by simpa using ha), ih h]

theorem find_append_single (t : List (Nat × Edge)) (k : Nat) (e : Edge)
    (h : t.find? (fun p => p.1 = k) = none) :
    (t ++ [(k, e)]).find? (fun p => p.1 = k) = some (k, e) := by
  rw [List.find?_append, h]
  simp

/-- Writing the pair `(k, e)` makes the lookup at `k` yield `e` — a Go map
assignment followed by a read of the same key. -/
theorem alookup_aset_self (m : List (Nat × Edge)) (k : Nat) (e : Edge) :
    Graph.alookup (Graph.aset m k e) k = some e := by
  unfold Graph.aset
  split
  next hf =>
    unfold Graph.alookup
    rw [find_map_replace_self m k e hf]
    rfl
  next hf =>
    unfold Graph.alookup
    rw [find_append_single m k e (by
      cases hn : m.find? (fun p => p.1 = k) with
      | none => rfl
      | some a => rw [hn] at hf; simp at hf)]
    rfl

/-- Writing a key preserves the presence of every key. -/
theorem alookup_aset_isSome (m : List (Nat × Edge)) (k k' : Nat) (e : Edge)
    (h : (Graph.alookup m k').isSome = true) :
    (Graph.alookup (Graph.aset m k e) k').isSome = true := by
  by_cases hk : k' = k
  · subst hk
    rw [alookup_aset_self]
    rfl
  · unfold Graph.aset
    split
    next =>
      unfold Graph.alookup at h ⊢
      rw [Option.isSome_map'] at h ⊢
      rw [find_map_replace_isSome m k k' e]
      exact h
    next =>
      unfold Graph.alookup at h ⊢
      rw [Option.isSome_map'] at h ⊢
      cases hn : m.find? (fun p => p.1 = k') with
      | none => rw [hn] at h; cases h
      | some a =>
        have : (m ++ [(k, e)]).find? (fun p => p.1 = k') = some a := by
          rw [List.find?_append, hn]
          rfl
        rw [this]
        rfl

end RGraph

namespace RGraph

/-- `AddEdgeFromTo(u, v)` appends `u` — not `v` — to the sequence backing
`From(u)`, and `v` — not `u` — to the sequence backing `To(v)`. -/
theorem addEdgeFromTo_seq (g g' : Graph) (u v : Node)
    (h : g.addEdgeFromTo u v = some g') :
    g'.fromSeq u = g.fromSeq u ++ [u] ∧ g'.toSeq v = g.toSeq v ++ [v] := by
  unfold Graph.addEdgeFromTo at h
  cases hm : g.edges u.id with
  | none => rw [hm] at h; cases h
  | some m =>
    rw [hm] at h
    injection h with h
    subst h
    constructor
    · simp [Graph.fromSeq]
    · simp [Graph.toSeq]

/-- `AddEdgeFromTo` touches no node bookkeeping. -/
theorem addEdgeFromTo_meta (g g' : Graph) (u v : Node)
    (h : g.addEdgeFromTo u v = some g') :
    g'.nodes = g.nodes ∧ g'.names = g.names ∧ g'.nodeIDs = g.nodeIDs
      ∧ g'.nextID = g.nextID := by
  unfold Graph.addEdgeFromTo at h
  cases hm : g.edges u.id with
  | none => rw [hm] at h; cases h
  | some m =>
    rw [hm] at h
    injection h with h
    subst h
    exact ⟨rfl, rfl, rfl, rfl⟩

/-- An inner edge map present before `AddEdgeFromTo` is present after. -/
theorem addEdgeFromTo_edges_isSome (g g' : Graph) (u v : Node)
    (h : g.addEdgeFromTo u v = some g') (i : Nat)
    (hi : (g.edges i).isSome = true) : (g'.edges i).isSome = true := by
  unfold Graph.addEdgeFromTo at h
  cases hm : g.edges u.id with
  | none => rw [hm] at h; cases h
  | some m =>
    rw [hm] at h
    injection h with h
    subst h
    by_cases hiu : i = u.id
    · simp [hiu]
    · simpa [hiu] using hi

/-- After `AddEdgeFromTo(u, v)`, `Edge(u, v)` is the freshly written edge. -/
theorem addEdgeFromTo_edgeGet_self (g g' : Graph) (u v : Node)
    (h : g.addEdgeFromTo u v = some g') :
    g'.edgeGet u v = some ⟨u, v⟩ := by
  unfold Graph.addEdgeFromTo at h
  cases hm : g.edges u.id with
  | none => rw [hm] at h; cases h
  | some m =>
    rw [hm] at h
    injection h with h
    subst h
    unfold Graph.edgeGet
    simp only [if_pos rfl]
    exact alookup_aset_self m v.id ⟨u, v⟩

/-- `AddEdgeFromTo` never removes a recorded edge. -/
theorem addEdgeFromTo_edgeGet_mono (g g' : Graph) (a b u v : Node)
    (h : g.addEdgeFromTo a b = some g')
    (hi : (g.edgeGet u v).isSome = true) : (g'.edgeGet u v).isSome = true := by
  unfold Graph.addEdgeFromTo at h
  cases hm : g.edges a.id with
  | none => rw [hm] at h; cases h
  | some m =>
    rw [hm] at h
    injection h with h
    subst h
    unfold Graph.edgeGet at hi ⊢
    by_cases hua : u.id = a.id
    · simp only [hua, if_pos rfl]
      rw [hua, hm] at hi
      exact alookup_aset_isSome m b.id v.id ⟨a, b⟩ hi
    · simp only [if_neg hua]
      exact hi

end RGraph

namespace RGraph

/-- **C2** (refuted — code bug): the claim says that after `AddEdgeFromTo(u, v)`
the sequence `From(u)` contains `v` and `To(v)` contains `u`.  The source
instead appends `u` to `edgesFrom[u.ID()]` and `v` to `edgesTo[v.ID()]`
(part_000 lines 206–207), so `From(u)` gains `u` and `To(v)` gains `v`; when
`v` was not already present in `From(u)` it is not present afterwards either,
and symmetrically for `To`. -/
theorem C2_addEdgeFromTo_records_wrong_endpoints (g g' : Graph) (u v : Node)
    (hu : g.has u = true) (hv : g.has v = true)
    (h : g.addEdgeFromTo u v = some g') :
    g'.fromSeq u = g.fromSeq u ++ [u] ∧ g'.toSeq v = g.toSeq v ++ [v]
    ∧ (v ∉ g.fromSeq u → u ≠ v → v ∉ g'.fromSeq u)
    ∧ (u ∉ g.toSeq v → u ≠ v → u ∉ g'.toSeq v) := by
  obtain ⟨hf, ht⟩ := addEdgeFromTo_seq g g' u v h
  refine ⟨hf, ht, ?_, ?_⟩
  · intro hnot hne
    rw [hf]
    intro hmem
    rcases List.mem_append.mp hmem with hl | hr
    · exact hnot hl
    · exact hne (List.mem_singleton.mp hr).symm
  · intro hnot hne
    rw [ht]
    intro hmem
    rcases List.mem_append.mp hmem with hl | hr
    · exact hnot hl
    · exact hne (List.mem_singleton.mp hr)

/-- Witness for C2 on the two-node graph `gab`. -/
theorem C2_witness :
    gab1.fromSeq na = gab.fromSeq na ++ [na] ∧ gab1.toSeq nb = gab.toSeq nb ++ [nb]
    ∧ nb ∉ gab1.fromSeq na ∧ na ∉ gab1.toSeq nb := by
  have h := C2_addEdgeFromTo_records_wrong_endpoints gab gab1 na nb rfl rfl rfl
  exact ⟨h.1, h.2.1, h.2.2.1 (by decide) (by decide), h.2.2.2 (by decide) (by decide)⟩

/-- **C6 counterexample**: the claim says that after calling
`AddEdgeFromTo(u, v)` twice, `From` and `To` reflect only the first
occurrence, with no duplicate entry for the pair.  On the concrete two-node
graph `gab`, two identical calls leave `From(na)` and `To(nb)` with TWO
entries each (and those entries are the wrong endpoints, per C2). -/
theorem C6_counterexample :
    gab2.fromSeq na = [na, na] ∧ gab2.toSeq nb = [nb, nb]
    ∧ (gab2.fromSeq na).length = 2 := by
  refine ⟨?_, ?_, ?_⟩ <;> decide

/-- **C6 amended**: calling `AddEdgeFromTo` twice with the same `(u, v)`
leaves exactly one entry for that ordered pair in the keyed edge map (the
second write overwrites the first — last write wins), but each call appends
one more entry to the `edgesFrom`/`edgesTo` adjacency sequences, so `From(u)`
and `To(v)` gain duplicated entries (each being `u` resp. `v` rather than the
opposite endpoint). -/
theorem C6_amended_edge_map_idempotent (g g1 g2 : Graph) (u v : Node)
    (m : List (Nat × Edge))
    (hm : g.edges u.id = some m)
    (hfresh : m.find? (fun p => p.1 = v.id) = none)
    (h1 : g.addEdgeFromTo u v = some g1) (h2 : g1.addEdgeFromTo u v = some g2) :
    ((g2.edges u.id).getD []).filter (fun p => p.1 = v.id) = [(v.id, ⟨u, v⟩)]
    ∧ g2.fromSeq u = g.fromSeq u ++ [u, u]
    ∧ g2.toSeq v = g.toSeq v ++ [v, v] := by
  obtain ⟨hf1, ht1⟩ := addEdgeFromTo_seq g g1 u v h1
  obtain ⟨hf2, ht2⟩ := addEdgeFromTo_seq g1 g2 u v h2
  refine ⟨?_, ?_, ?_⟩
  · unfold Graph.addEdgeFromTo at h1
    rw [hm] at h1
    injection h1 with h1
    have hg1e : g1.edges u.id = some (Graph.aset m v.id ⟨u, v⟩) := by
      rw [← h1]
      simp
    unfold Graph.addEdgeFromTo at h2
    rw [hg1e] at h2
    injection h2 with h2
    have hg2e : g2.edges u.id
        = some (Graph.aset (Graph.aset m v.id ⟨u, v⟩) v.id ⟨u, v⟩) := by
      rw [← h2]
      simp
    rw [hg2e]
    have hnotfound : (m.find? (fun p => p.1 = v.id)).isSome = false := by
      rw [hfresh]
      rfl
    have haset1 : Graph.aset m v.id ⟨u, v⟩ = m ++ [(v.id, ⟨u, v⟩)] := by
      unfold Graph.aset
      rw [if_neg (by rw [hnotfound]; exact Bool.false_ne_true)]
    have hfound : ((m ++ [(v.id, (⟨u, v⟩ : Edge))]).find?
        (fun p => p.1 = v.id)).isSome = true := by
      rw [List.find?_append, hfresh]
      simp
    have haset2 : Graph.aset (m ++ [(v.id, ⟨u, v⟩)]) v.id ⟨u, v⟩
        = (m ++ [((v.id, ⟨u, v⟩) : Nat × Edge)]).map
            (fun (p : Nat × Edge) =>
              if p.1 = v.id then ((v.id, ⟨u, v⟩) : Nat × Edge) else p) := by
      unfold Graph.aset
      rw [if_pos hfound]
    have hmapm : m.map (fun p => if p.1 = v.id then ((v.id, ⟨u, v⟩) : Nat × Edge) else p)
        = m := by
      rw [List.map_congr_left, List.map_id]
      intro a ha
      have : ¬ a.1 = v.id := by
        have := List.find?_eq_none.mp hfresh a ha
        simpa using this
      simp [this]
    have hfilterm : m.filter (fun p => p.1 = v.id) = [] := by
      rw [List.filter_eq_nil_iff]
      intro a ha
      have := List.find?_eq_none.mp hfresh a ha
      simpa using this
    rw [haset1, haset2, Option.getD_some, List.map_append, hmapm, List.filter_append,
      hfilterm]
    simp
  · rw [hf2, hf1, List.append_assoc]
    rfl
  · rw [ht2, ht1, List.append_assoc]
    rfl

/-- Witness for the amended C6 on the concrete graph `gab`. -/
theorem C6_amended_witness :
    ((gab2.edges na.id).getD []).filter (fun p => p.1 = nb.id) = [(nb.id, ⟨na, nb⟩)]
    ∧ gab2.fromSeq na = gab.fromSeq na ++ [na, na]
    ∧ gab2.toSeq nb = gab.toSeq nb ++ [nb, nb] :=
  C6_amended_edge_map_idempotent gab gab1 gab2 na nb [] rfl rfl rfl rfl

end RGraph

namespace RGraph

/-- A sequence of `AddNode` calls, aborting at the first panic. -/
def addNodeSeq (g : Graph) (vs : List Node) : Option Graph :=
  vs.foldlM Graph.addNode g

/-- No two nodes of the graph share a package name. -/
def NamesDistinct (g : Graph) : Prop :=
  g.nodes.Pairwise (fun a b => a.pkg.name ≠ b.pkg.name)

/-- Every stored node's name is registered in the name map. -/
def NamesIndexed (g : Graph) : Prop :=
  ∀ n ∈ g.nodes, g.hasName n.pkg.name = true

theorem namesIndexed_empty : NamesIndexed emptyGraph := by
  intro n hn
  cases hn

theorem namesDistinct_empty : NamesDistinct emptyGraph := by
  exact List.Pairwise.nil

/-- A successful `AddNode` preserves distinctness of names and the name
index; it can only succeed when the new name was absent. -/
theorem addNode_preserves_names (g g' : Graph) (v : Node)
    (h : g.addNode v = some g')
    (hd : NamesDistinct g) (hi : NamesIndexed g) :
    NamesDistinct g' ∧ NamesIndexed g' := by
  unfold Graph.addNode at h
  by_cases hn : g.hasName v.pkg.name = true
  · rw [if_pos hn] at h
    cases h
  · rw [if_neg hn] at h
    by_cases hh : g.has v = true
    · rw [if_pos hh] at h
      cases h
    · rw [if_neg hh] at h
      injection h with h
      subst h
      constructor
      · unfold NamesDistinct
        simp only [List.pairwise_append]
        refine ⟨hd, List.pairwise_singleton _ _, ?_⟩
        intro a ha b hb
        rw [List.mem_singleton.mp hb]
        intro heq
        apply hn
        rw [← heq]
        exact hi a ha
      · intro n hn'
        simp only [List.mem_append, List.mem_singleton] at hn'
        unfold Graph.hasName
        rcases hn' with hmem | rfl
        · have := hi n hmem
          unfold Graph.hasName at this
          simp only []
          by_cases hcase : n.pkg.name = v.pkg.name
          · rw [if_pos hcase]
            rfl
          · rw [if_neg hcase]
            exact this
        · simp

/-- Any successful `AddNode` sequence from a graph with distinct, indexed
names yields a graph with distinct names. -/
theorem addNodeSeq_distinct (vs : List Node) :
    ∀ (g g' : Graph), NamesDistinct g → NamesIndexed g →
      addNodeSeq g vs = some g' → NamesDistinct g' ∧ NamesIndexed g' := by
  induction vs with
  | nil =>
    intro g g' hd hi h
    injection h with h
    subst h
    exact ⟨hd, hi⟩
  | cons v vs ih =>
    intro g g' hd hi h
    unfold addNodeSeq at h
    rw [List.foldlM_cons] at h
    cases hstep : g.addNode v with
    | none => rw [hstep] at h; cases h
    | some g1 =>
      rw [hstep] at h
      obtain ⟨hd1, hi1⟩ := addNode_preserves_names g g1 v hstep hd hi
      exact ih g1 g' hd1 hi1 h

/-- **C9** (confirmed): (i) any sequence of `AddNode` calls that runs to
completion on an initially empty graph leaves the node list free of duplicate
package names; (ii) an `AddNode` whose node's name is already present panics
(modelled as `none`) without producing a modified graph; (iii) likewise when
the identifier is already present.  A duplicate is never silently merged. -/
theorem C9_addNode_name_uniqueness :
    (∀ (vs : List Node) (g : Graph),
        addNodeSeq emptyGraph vs = some g → NamesDistinct g)
    ∧ (∀ (g : Graph) (v : Node), g.hasName v.pkg.name = true → g.addNode v = none)
    ∧ (∀ (g : Graph) (v : Node), g.has v = true → g.addNode v = none) := by
  refine ⟨?_, ?_, ?_⟩
  · intro vs g h
    exact (addNodeSeq_distinct vs emptyGraph g namesDistinct_empty
      namesIndexed_empty h).1
  · intro g v h
    unfold Graph.addNode
    rw [if_pos h]
  · intro g v h
    unfold Graph.addNode
    by_cases hn : g.hasName v.pkg.name = true
    · rw [if_pos hn]
    · rw [if_neg hn, if_pos h]

/-- Witness for C9: the two-node fixture, a name collision and an identifier
collision. -/
theorem C9_witness :
    NamesDistinct gab
    ∧ gab.addNode ⟨7, pa⟩ = none
    ∧ gab.addNode ⟨1, ⟨"c", .remoteO, [], []⟩⟩ = none :=
  ⟨C9_addNode_name_uniqueness.1 [na, nb] gab rfl,
   C9_addNode_name_uniqueness.2.1 gab ⟨7, pa⟩ rfl,
   C9_addNode_name_uniqueness.2.2 gab ⟨1, ⟨"c", .remoteO, [], []⟩⟩ rfl⟩

end RGraph

namespace RGraph

/-- Well-formedness of a graph built through the public interface: every map
entry is backed by a stored node. -/
def WF (g : Graph) : Prop :=
  (∀ name n, g.names name = some n → n ∈ g.nodes ∧ n.pkg.name = name)
  ∧ (∀ i n, g.nodeIDs i = some n → n ∈ g.nodes ∧ n.id = i)
  ∧ (∀ i, (g.edgesFrom i).isSome = true → ∃ n ∈ g.nodes, n.id = i)
  ∧ (∀ i, (g.edgesTo i).isSome = true → ∃ n ∈ g.nodes, n.id = i)

theorem wf_empty : WF emptyGraph := by
  refine ⟨fun name n h => ?_, fun i n h => ?_, fun i h => ?_, fun i h => ?_⟩ <;>
    cases h

/-- `AddNode` preserves well-formedness. -/
theorem wf_addNode (g g' : Graph) (v : Node) (h : g.addNode v = some g')
    (hw : WF g) : WF g' := by
  unfold Graph.addNode at h
  by_cases hn : g.hasName v.pkg.name = true
  · rw [if_pos hn] at h
    cases h
  · rw [if_neg hn] at h
    by_cases hh : g.has v = true
    · rw [if_pos hh] at h
      cases h
    · rw [if_neg hh] at h
      injection h with h
      subst h
      obtain ⟨w1, w2, w3, w4⟩ := hw
      refine ⟨?_, ?_, ?_, ?_⟩
      · intro name n hmap
        simp only [] at hmap
        by_cases hcase : name = v.pkg.name
        · rw [if_pos hcase] at hmap
          injection hmap with hmap
          subst hmap
          exact ⟨List.mem_append_right _ (List.mem_singleton.mpr rfl), hcase.symm⟩
        · rw [if_neg hcase] at hmap
          obtain ⟨hmem, hname⟩ := w1 name n hmap
          exact ⟨List.mem_append_left _ hmem, hname⟩
      · intro i n hmap
        simp only [] at hmap
        by_cases hcase : i = v.id
        · rw [if_pos hcase] at hmap
          injection hmap with hmap
          subst hmap
          exact ⟨List.mem_append_right _ (List.mem_singleton.mpr rfl), hcase.symm⟩
        · rw [if_neg hcase] at hmap
          obtain ⟨hmem, hid⟩ := w2 i n hmap
          exact ⟨List.mem_append_left _ hmem, hid⟩
      · intro i hsome
        simp only [] at hsome
        by_cases hcase : i = v.id
        · exact ⟨v, List.mem_append_right _ (List.mem_singleton.mpr rfl), hcase.symm⟩
        · rw [if_neg hcase] at hsome
          obtain ⟨n, hmem, hid⟩ := w3 i hsome
          exact ⟨n, List.mem_append_left _ hmem, hid⟩
      · intro i hsome
        simp only [] at hsome
        by_cases hcase : i = v.id
        · exact ⟨v, List.mem_append_right _ (List.mem_singleton.mpr rfl), hcase.symm⟩
        · rw [if_neg hcase] at hsome
          obtain ⟨n, hmem, hid⟩ := w4 i hsome
          exact ⟨n, List.mem_append_left _ hmem, hid⟩

/-- `AddEdgeFromTo` between two present nodes preserves well-formedness. -/
theorem wf_addEdgeFromTo (g g' : Graph) (u v : Node)
    (h : g.addEdgeFromTo u v = some g')
    (hu : g.has u = true) (hv : g.has v = true) (hw : WF g) : WF g' := by
  obtain ⟨w1, w2, w3, w4⟩ := hw
  have hmemu : ∃ n ∈ g.nodes, n.id = u.id := by
    unfold Graph.has at hu
    cases hid : g.nodeIDs u.id with
    | none => rw [hid] at hu; cases hu
    | some n =>
      obtain ⟨hmem, hi⟩ := w2 u.id n hid
      exact ⟨n, hmem, hi⟩
  have hmemv : ∃ n ∈ g.nodes, n.id = v.id := by
    unfold Graph.has at hv
    cases hid : g.nodeIDs v.id with
    | none => rw [hid] at hv; cases hv
    | some n =>
      obtain ⟨hmem, hi⟩ := w2 v.id n hid
      exact ⟨n, hmem, hi⟩
  unfold Graph.addEdgeFromTo at h
  cases hm : g.edges u.id with
  | none => rw [hm] at h; cases h
  | some m =>
    rw [hm] at h
    injection h with h
    subst h
    refine ⟨w1, w2, ?_, ?_⟩
    · intro i hsome
      simp only [] at hsome
      by_cases hcase : i = u.id
      · subst hcase
        exact hmemu
      · rw [if_neg hcase] at hsome
        exact w3 i hsome
    · intro i hsome
      simp only [] at hsome
      by_cases hcase : i = v.id
      · subst hcase
        exact hmemv
      · rw [if_neg hcase] at hsome
        exact w4 i hsome

/-- **C10** (confirmed): on any well-formed graph, the query operations are
total on absent inputs: an unknown name gives `HasName = false` and
`NodeWithName = nil`, an unknown identifier gives `Has = false` and empty
`From`/`To` sequences.  (In the Go source these are plain map reads, which
return zero values rather than faulting; the embedding makes them total by
construction.) -/
theorem C10_queries_total_on_absent (g : Graph) (hw : WF g) :
    (∀ name, (∀ n ∈ g.nodes, n.pkg.name ≠ name) →
      g.hasName name = false ∧ g.nodeWithName name = none)
    ∧ (∀ v : Node, (∀ n ∈ g.nodes, n.id ≠ v.id) →
      g.has v = false ∧ g.fromSeq v = [] ∧ g.toSeq v = []) := by
  obtain ⟨w1, w2, w3, w4⟩ := hw
  constructor
  · intro name habs
    have hnone : g.names name = none := by
      cases hn : g.names name with
      | none => rfl
      | some n =>
        obtain ⟨hmem, hname⟩ := w1 name n hn
        exact absurd hname (habs n hmem)
    refine ⟨?_, hnone⟩
    unfold Graph.hasName
    rw [hnone]
    rfl
  · intro v habs
    refine ⟨?_, ?_, ?_⟩
    · unfold Graph.has
      cases hn : g.nodeIDs v.id with
      | none => rfl
      | some n =>
        obtain ⟨hmem, hid⟩ := w2 v.id n hn
        exact absurd hid (habs n hmem)
    · unfold Graph.fromSeq
      cases hn : g.edgesFrom v.id with
      | none => rfl
      | some l =>
        obtain ⟨n, hmem, hid⟩ := w3 v.id (by rw [hn]; rfl)
        exact absurd hid (habs n hmem)
    · unfold Graph.toSeq
      cases hn : g.edgesTo v.id with
      | none => rfl
      | some l =>
        obtain ⟨n, hmem, hid⟩ := w4 v.id (by rw [hn]; rfl)
        exact absurd hid (habs n hmem)

/-- Witness for C10 on the two-node fixture with an absent name and an absent
identifier. -/
theorem C10_witness :
    gab.hasName "c" = false ∧ gab.nodeWithName "c" = none
    ∧ gab.has ⟨9, pa⟩ = false ∧ gab.fromSeq ⟨9, pa⟩ = [] ∧ gab.toSeq ⟨9, pa⟩ = [] := by
  have hwf : WF gab :=
    wf_addNode ga gab nb rfl (wf_addNode emptyGraph ga na rfl wf_empty)
  have h := C10_queries_total_on_absent gab hwf
  have h1 := h.1 "c" (by decide)
  have h2 := h.2 ⟨9, pa⟩ (by decide)
  exact ⟨h1.1, h1.2, h2.1, h2.2.1, h2.2.2⟩

end RGraph

namespace RGraph

/-- **C8** (confirmed): when the batched AUR lookup for a layer returns an
error that is not a not-found result — or a not-found result while
forbid-unknown (`noUnknown`) is set — the layer aborts with exactly that
error (`return nil, err`, factory.go line 206), producing no graph; the main
loop propagates the error unchanged. -/
theorem C8_remote_error_aborts (f : Factory) (readAll : ReadAllOracle)
    (g : Graph) (lst : List Node) (s : Scan)
    (hs : processFrontier f (initScan g) lst = some s)
    (e : AURError)
    (he : (readAll (fromAURList s.unavailable)).2 = some e)
    (hcond : e.isNotFound = false ∨ f.noUnknown = true) :
    (∀ calls, layerStep f readAll calls g lst = .error e)
    ∧ (lst = [] →
        ∀ fuel calls, newGraphLoop f readAll (fuel + 1) calls g lst = .error e) := by
  have hstep : ∀ calls, layerStep f readAll calls g lst = .error e := by
    intro calls
    unfold layerStep
    rw [hs]
    simp only []
    cases hr : readAll (fromAURList s.unavailable) with
    | mk pkgs err =>
      rw [hr] at he
      simp only [] at he
      subst he
      rcases hcond with hnf | hnu
      · simp [hnf]
      · simp [hnu]
  refine ⟨hstep, ?_⟩
  intro hnil fuel calls
  subst hnil
  unfold newGraphLoop
  rw [hstep calls]
  simp

/-- Witness for C8: a transport failure, and a not-found failure under
forbid-unknown, on a one-node frontier. -/
theorem C8_witness :
    layerStep facNone oracleTransport 0 ga [na] = .error .transportFail
    ∧ layerStep { facNone with noUnknown := true } oracleGhost 0 ga [na]
        = .error (.notFound ["ghost"]) := by
  constructor
  · exact (C8_remote_error_aborts facNone oracleTransport ga [na]
      (((processFrontier facNone (initScan ga) [na]).getD (initScan ga)))
      rfl .transportFail rfl (Or.inl rfl)).1 0
  · exact (C8_remote_error_aborts { facNone with noUnknown := true } oracleGhost ga [na]
      (((processFrontier { facNone with noUnknown := true }
        (initScan ga) [na]).getD (initScan ga)))
      rfl (.notFound ["ghost"]) rfl (Or.inr rfl)).1 0

/-- Package "v", whose only dependency "s" is available in sync. -/
def pv : Package := ⟨"v", .remoteO, ["s"], []⟩

/-- The sync package for "s" (its own dependencies are irrelevant here). -/
def psync : Package := ⟨"s", .syncO, ["z"], []⟩

/-- The frontier node wrapping `pv`. -/
def nv : Node := ⟨1, pv⟩

/-- The node `NewNode` allocates for `psync` in the sync branch. -/
def nsy : Node := ⟨2, psync⟩

/-- A factory whose sync map offers exactly `psync`. -/
def facS : Factory :=
  { facNone with syncPkgs := fun x => if x = "s" then some psync else none }

/-- The graph holding exactly `nv`, allocated through `NewNode` so that
`nextID` is 1, as after the seeding phase of `NewGraph`. -/
def gv : Graph := ((emptyGraph.newNode pv).1.addNode nv).getD emptyGraph

/-- **C3** (refuted — code bug): in the sync branch (factory.go lines
156–164) the code calls `g.NewNode(p)` and `g.AddEdgeFromTo(v, u)` but never
`g.AddNode(u)`.  After the layer, the edge `nv → nsy` is recorded in the edge
map and `nsy` sits in the next frontier and in the `edgesTo` bucket, yet the
graph has no node named "s": `HasName` and `Has` are false, so the edge has
an endpoint that is not a node of the graph. -/
theorem C3_sync_dependency_node_never_added :
    (layerStep facS oracleEmpty 0 gv [nv]).okParts.map
      (fun x => (x.1.hasName "s", x.1.has nsy, (x.1.edgeGet nv nsy).isSome,
        x.1.toSeq nsy, x.2.1.map (fun n => n.pkg.name), x.1.allNodes))
      = some (false, false, true, [nsy], ["s"], [nv]) := by
  rfl

/-- Package "w", whose only dependency "x" is resolvable by no local means. -/
def pw : Package := ⟨"w", .remoteO, ["x"], []⟩

/-- The frontier node wrapping `pw`. -/
def nw : Node := ⟨1, pw⟩

/-- The graph holding exactly `nw`, allocated through `NewNode`. -/
def gw : Graph := ((emptyGraph.newNode pw).1.addNode nw).getD emptyGraph

/-- **C4** (refuted — code bug): for a layer with K = 1 distinct unresolved
name, the list handed to the single AUR call is `fromAURList` of the
unavailable set — built by `make([]string, len(unavailable))` followed by
`append`s (factory.go lines 185–188) — which is `["", "x"]`: 2K entries, K of
them empty strings, not exactly the K distinct names.  The remote-call
counter does increase by exactly one for the layer. -/
theorem C4_batch_list_padded_with_empties :
    (processFrontier facNone (initScan gw) [nw]).map
      (fun s => (s.unavailable, fromAURList s.unavailable,
        (fromAURList s.unavailable).length))
      = some (["x"], ["", "x"], 2)
    ∧ (layerStep facNone oracleEmpty 0 gw [nw]).okParts.map
        (fun x => x.2.2) = some 1 := by
  constructor
  · decide
  · decide

end RGraph

namespace RGraph

/-- The graph/frontier pair that seeding produces for the single seed `pa`. -/
def gSeedA : Graph := ((seedGraph [pa]).map Prod.fst).getD emptyGraph

/-- **C1** (refuted — code bug): the main loop of `NewGraph` is written
`for len(lst) == 0` (factory.go line 135), so for every NON-empty seed list
the loop body never runs: no frontier node's dependency list is ever
consulted.  For the seed `pa` (which depends on "b", available in the sync
map), the returned graph — for EVERY fuel bound — contains only the seed
node, no node "b", no edges, and the AUR counter stays 0. -/
theorem C1_loop_body_never_runs_for_nonempty_seeds : ∀ fuel : Nat,
    (newGraphGo facB oracleEmpty fuel [pa]).okParts.map
      (fun x => (x.1.hasName "b", x.1.allNodes.map (fun n => n.pkg.name),
        x.1.fromSeq na, x.2))
    = some (false, ["a"], [], 0) := by
  intro fuel
  have hloop : ∀ (calls : Nat) (g : Graph) (v : Node) (r : List Node),
      newGraphLoop facB oracleEmpty fuel calls g (v :: r) = .ok g calls := by
    intro calls g v r
    unfold newGraphLoop
    simp
  have hgo : newGraphGo facB oracleEmpty fuel [pa]
      = newGraphLoop facB oracleEmpty fuel 0 gSeedA [na] := rfl
  rw [hgo, hloop]
  rfl

/-- The graph that seeding produces for the seeds `[pa, pb]`. -/
def gSeedAB : Graph := ((seedGraph [pa, pb]).map Prod.fst).getD emptyGraph

/-- **C5** (refuted — code bug): with the mutually dependent seeds `pa` ("a"
depends on "b") and `pb` ("b" depends on "a"), `NewGraph` does terminate, but
only because the inverted loop condition skips resolution entirely: the
result has both nodes and NO edges, contradicting the claimed "both nodes and
both edges".  Worse, for the EMPTY seed list the loop condition is initially
true and, with a well-behaved remote source, stays true: the run exhausts any
fuel bound, i.e. `NewGraph` loops forever. -/
theorem C5_cycle_seeds_lose_edges_and_empty_seeds_diverge :
    ((newGraphGo facNone oracleEmpty 5 [pa, pb]).okParts.map
      (fun x => (x.1.allNodes.map (fun n => n.pkg.name),
        (x.1.edgeGet na nb).isSome, (x.1.edgeGet nb na).isSome,
        x.1.fromSeq na, x.1.fromSeq nb, x.2)))
      = some (["a", "b"], false, false, [], [], 0)
    ∧ (∀ fuel, newGraphGo facNone oracleEmpty fuel [] = .fuelOut) := by
  constructor
  · rfl
  · have hstep : ∀ (calls : Nat) (g : Graph),
        layerStep facNone oracleEmpty calls g ([] : List Node)
          = .ok g [] (calls + 1) :=
      fun _ _ => rfl
    have hdiv : ∀ (fuel calls : Nat) (g : Graph),
        newGraphLoop facNone oracleEmpty fuel calls g [] = .fuelOut := by
      intro fuel
      induction fuel with
      | zero =>
        intro calls g
        unfold newGraphLoop
        simp
      | succ n ih =>
        intro calls g
        unfold newGraphLoop
        rw [hstep calls g]
        simpa using ih (calls + 1) g
    intro fuel
    exact hdiv fuel 0 emptyGraph

end RGraph

namespace RGraph

/-- Package "p1", depending only on the unresolvable name "ghost". -/
def pg1 : Package := ⟨"p1", .remoteO, ["ghost"], []⟩

/-- Package "p2", depending only on the unresolvable name "ghost". -/
def pg2 : Package := ⟨"p2", .remoteO, ["ghost"], []⟩

/-- The seeded graph for `[pg1, pg2]`. -/
def gSeedG : Graph := ((seedGraph [pg1, pg2]).map Prod.fst).getD emptyGraph

/-- **C7 counterexample**: the claim says the Unknown placeholder is "not
placed into the next frontier".  In the source, `addFetchedPkg` (factory.go
line 177) appends every fetched package — placeholders included — to `new`:
after the layer in which "ghost" is reported not found, the next frontier is
exactly the ghost placeholder node, not empty. -/
theorem C7_counterexample :
    (layerStep facNone oracleGhost 0 gSeedG [⟨1, pg1⟩, ⟨2, pg2⟩]).okParts.map
      (fun x => x.2.1.map (fun n => n.pkg.name)) = some ["ghost"]
    ∧ ["ghost"] ≠ ([] : List String) := by
  exact ⟨rfl, by decide⟩

/-- A successful `AddNode`, spelled out. -/
theorem addNode_some_eq (g : Graph) (v : Node)
    (hn : g.hasName v.pkg.name = false) (hh : g.has v = false) :
    g.addNode v = some
      { g with
        names := fun s => if s = v.pkg.name then some v else g.names s
        nodes := g.nodes ++ [v]
        nodeIDs := fun i => if i = v.id then some v else g.nodeIDs i
        edgesFrom := fun i => if i = v.id then some [] else g.edgesFrom i
        edgesTo := fun i => if i = v.id then some [] else g.edgesTo i
        edges := fun i => if i = v.id then some [] else g.edges i } := by
  unfold Graph.addNode
  rw [if_neg (by rw [hn]; exact Bool.false_ne_true),
    if_neg (by rw [hh]; exact Bool.false_ne_true)]

/-- `AddEdgeFromTo` succeeds whenever the from-node's inner map exists. -/
theorem addEdgeFromTo_isSome (g : Graph) (u v : Node)
    (h : (g.edges u.id).isSome = true) : ∃ g', g.addEdgeFromTo u v = some g' := by
  unfold Graph.addEdgeFromTo
  cases hm : g.edges u.id with
  | none => rw [hm] at h; cases h
  | some m => exact ⟨_, rfl⟩

/-- Folding `AddEdgeFromTo · t` over a list of from-nodes whose inner edge
maps all exist succeeds, changes no node bookkeeping, and leaves an edge
`v → t` recorded for every `v` in the list. -/
theorem edgeFold_props (vs : List Node) :
    ∀ (g : Graph) (t : Node),
      (∀ v ∈ vs, (g.edges v.id).isSome = true) →
      ∃ g', vs.foldlM (fun (gg : Graph) v => gg.addEdgeFromTo v t) g = some g'
        ∧ g'.nodes = g.nodes ∧ g'.names = g.names ∧ g'.nodeIDs = g.nodeIDs
        ∧ (∀ u w : Node,
            (g.edgeGet u w).isSome = true → (g'.edgeGet u w).isSome = true)
        ∧ (∀ v ∈ vs, (g'.edgeGet v t).isSome = true) := by
  induction vs with
  | nil =>
    intro g t _
    exact ⟨g, rfl, rfl, rfl, rfl, fun _ _ h => h,
      fun v hv => absurd hv (List.not_mem_nil v)⟩
  | cons v rest ih =>
    intro g t h
    obtain ⟨g1, h1⟩ :=
      addEdgeFromTo_isSome g v t (h v (List.mem_cons_self v rest))
    obtain ⟨hn1, hm1, hi1, _⟩ := addEdgeFromTo_meta g g1 v t h1
    have hrest : ∀ w ∈ rest, (g1.edges w.id).isSome = true := fun w hw =>
      addEdgeFromTo_edges_isSome g g1 v t h1 w.id
        (h w (List.mem_cons_of_mem v hw))
    obtain ⟨g', hfold, hn', hm', hi', hmono', hall'⟩ := ih g1 t hrest
    refine ⟨g', ?_, ?_, ?_, ?_, ?_, ?_⟩
    · rw [List.foldlM_cons, h1]
      exact hfold
    · rw [hn', hn1]
    · rw [hm', hm1]
    · rw [hi', hi1]
    · intro u w hs
      exact hmono' u w (addEdgeFromTo_edgeGet_mono g g1 v t u w h1 hs)
    · intro w hw
      rcases List.mem_cons.mp hw with rfl | hmem
      · exact hmono' w t (by rw [addEdgeFromTo_edgeGet_self g g1 w t h1]; rfl)
      · exact hall' w hmem

end RGraph


namespace RGraph

/-- What a successful `AddNode` guarantees, in terms of the observations the
resolution proofs need. -/
theorem addNode_props (g g1 : Graph) (v : Node) (h : g.addNode v = some g1) :
    g1.nodes = g.nodes ++ [v]
    ∧ (∀ i, (g1.edges i).isSome = true ↔ (i = v.id ∨ (g.edges i).isSome = true))
    ∧ (∀ name, g1.hasName name = true ↔ (name = v.pkg.name ∨ g.hasName name = true))
    ∧ (∀ i, (g1.nodeIDs i).isSome = true ↔ (i = v.id ∨ (g.nodeIDs i).isSome = true))
    ∧ g1.nextID = g.nextID
    ∧ g1.names v.pkg.name = some v := by
  unfold Graph.addNode at h
  by_cases hn : g.hasName v.pkg.name = true
  · rw [if_pos hn] at h
    cases h
  · rw [if_neg hn] at h
    by_cases hh : g.has v = true
    · rw [if_pos hh] at h
      cases h
    · rw [if_neg hh] at h
      injection h with h
      subst h
      refine ⟨rfl, ?_, ?_, ?_, rfl, by simp⟩
      · intro i
        by_cases hc : i = v.id
        · simp [hc]
        · simp [hc]
      · intro name
        unfold Graph.hasName
        by_cases hc : name = v.pkg.name
        · simp [hc]
        · simp only [if_neg hc]
          constructor
          · intro hsome
            exact Or.inr hsome
          · intro hsome
            rcases hsome with hceq | hsome
            · exact absurd hceq hc
            · exact hsome
      · intro i
        by_cases hc : i = v.id
        · simp [hc]
        · simp only [if_neg hc]
          constructor
          · intro hsome
            exact Or.inr hsome
          · intro hsome
            rcases hsome with hceq | hsome
            · exact absurd hceq hc
            · exact hsome

end RGraph

namespace RGraph

/-- Characterization of the seeding fold: the stored node list extends the
accumulator by nodes wrapping the seed packages in order; every stored node
has an edge bucket; every registered name belongs to a stored node; and all
identifiers stay below `nextID`. -/
theorem seedFold_props (seeds : List Package) :
    ∀ (g : Graph) (lst : List Node) (g0 : Graph) (lst0 : List Node),
      seeds.foldlM seedStep (g, lst) = some (g0, lst0) →
      g.nodes = lst →
      (∀ v ∈ lst, (g.edges v.id).isSome = true) →
      (∀ name, g.hasName name = true → ∃ n ∈ lst, n.pkg.name = name) →
      (∀ i, (g.nodeIDs i).isSome = true → i ≤ g.nextID) →
      g0.nodes = lst0
      ∧ (∃ tail, lst0 = lst ++ tail ∧ tail.map (fun n => n.pkg) = seeds)
      ∧ (∀ v ∈ lst0, (g0.edges v.id).isSome = true)
      ∧ (∀ name, g0.hasName name = true → ∃ n ∈ lst0, n.pkg.name = name)
      ∧ (∀ i, (g0.nodeIDs i).isSome = true → i ≤ g0.nextID) := by
  induction seeds with
  | nil =>
    intro g lst g0 lst0 hfold h1 h2 h3 h4
    rw [List.foldlM_nil] at hfold
    injection hfold with hfold
    obtain ⟨rfl, rfl⟩ : g = g0 ∧ lst = lst0 :=
      ⟨congrArg Prod.fst hfold, congrArg Prod.snd hfold⟩
    exact ⟨h1, ⟨[], by simp, rfl⟩, h2, h3, h4⟩
  | cons p seeds ih =>
    intro g lst g0 lst0 hfold h1 h2 h3 h4
    rw [List.foldlM_cons] at hfold
    cases hstep : seedStep (g, lst) p with
    | none => rw [hstep] at hfold; cases hfold
    | some st =>
      rw [hstep] at hfold
      unfold seedStep at hstep
      simp only [Graph.newNode, Graph.newNodeID] at hstep
      cases hadd : Graph.addNode { g with nextID := g.nextID + 1 }
          ⟨g.nextID + 1, p⟩ with
      | none =>
        rw [hadd] at hstep
        cases hstep
      | some g1 =>
        rw [hadd] at hstep
        simp only [Option.map_some'] at hstep
        injection hstep with hstep
        subst hstep
        obtain ⟨pn, pe, ph, pi, pnext, _⟩ := addNode_props _ g1 _ hadd
        have h1' : g1.nodes = lst ++ [⟨g.nextID + 1, p⟩] := by
          rw [pn]
          show g.nodes ++ _ = _
          rw [h1]
        have h2' : ∀ v ∈ lst ++ [(⟨g.nextID + 1, p⟩ : Node)],
            (g1.edges v.id).isSome = true := by
          intro v hv
          rcases List.mem_append.mp hv with hmem | hsing
          · exact (pe v.id).mpr (Or.inr (h2 v hmem))
          · rw [List.mem_singleton.mp hsing]
            exact (pe _).mpr (Or.inl rfl)
        have h3' : ∀ name, g1.hasName name = true →
            ∃ n ∈ lst ++ [(⟨g.nextID + 1, p⟩ : Node)], n.pkg.name = name := by
          intro name hname
          rcases (ph name).mp hname with hceq | hold
          · exact ⟨⟨g.nextID + 1, p⟩,
              List.mem_append_right _ (List.mem_singleton.mpr rfl), hceq.symm⟩
          · obtain ⟨n, hmem, hn⟩ := h3 name hold
            exact ⟨n, List.mem_append_left _ hmem, hn⟩
        have h4' : ∀ i, (g1.nodeIDs i).isSome = true → i ≤ g1.nextID := by
          intro i hi
          have hnext : g1.nextID = g.nextID + 1 := pnext
          rcases (pi i).mp hi with hceq | hold
          · rw [hceq, hnext]
          · have := h4 i hold
            omega
        have hfold' : seeds.foldlM seedStep
            (g1, lst ++ [(⟨g.nextID + 1, p⟩ : Node)]) = some (g0, lst0) := hfold
        obtain ⟨q1, ⟨tail, htail, hmap⟩, q3, q4, q5⟩ :=
          ih g1 (lst ++ [⟨g.nextID + 1, p⟩]) g0 lst0 hfold' h1' h2' h3' h4'
        refine ⟨q1, ⟨⟨g.nextID + 1, p⟩ :: tail, ?_, ?_⟩, q3, q4, q5⟩
        · rw [htail, List.append_assoc]
          rfl
        · rw [List.map_cons, hmap]

end RGraph

namespace RGraph

/-- Scanning a frontier whose every node's selected dependency list is
exactly `["ghost"]`, with empty local and sync maps: the graph and `new`
frontier are untouched, and every frontier node is appended to the pending
list for "ghost". -/
theorem scan_all_ghost (lst : List Node) :
    ∀ (s : Scan),
      s.g.hasName "ghost" = false →
      (∀ v ∈ lst, facNone.depFunc v.pkg = ["ghost"]) →
      ∃ s', processFrontier facNone s lst = some s'
        ∧ s'.g = s.g ∧ s'.newFrontier = s.newFrontier
        ∧ s'.pending "ghost" = s.pending "ghost" ++ lst := by
  induction lst with
  | nil =>
    intro s _ _
    exact ⟨s, rfl, rfl, rfl, (List.append_nil _).symm⟩
  | cons v rest ih =>
    intro s hg hd
    have hdv : facNone.depFunc v.pkg = ["ghost"] := hd v (List.mem_cons_self v rest)
    have hstep : processNode facNone s v = some
        { s with
          unavailable :=
            if "ghost" ∈ s.unavailable then s.unavailable
            else s.unavailable ++ ["ghost"]
          pending := fun k =>
            if k = "ghost" then s.pending "ghost" ++ [v] else s.pending k } := by
      unfold processNode
      rw [hdv, List.foldlM_cons]
      unfold processDep
      rw [hg]
      simp [facNone]
    set s1 : Scan :=
      { s with
        unavailable :=
          if "ghost" ∈ s.unavailable then s.unavailable
          else s.unavailable ++ ["ghost"]
        pending := fun k =>
          if k = "ghost" then s.pending "ghost" ++ [v] else s.pending k }
      with hs1
    obtain ⟨s', hfold, hg', hnf', hpend'⟩ :=
      ih s1 hg (fun w hw => hd w (List.mem_cons_of_mem v hw))
    refine ⟨s', ?_, hg', hnf', ?_⟩
    · unfold processFrontier at hfold ⊢
      rw [List.foldlM_cons, hstep]
      exact hfold
    · rw [hpend']
      show (if ("ghost" : String) = "ghost" then s.pending "ghost" ++ [v]
        else s.pending "ghost") ++ rest = s.pending "ghost" ++ (v :: rest)
      rw [if_pos rfl, List.append_assoc]
      rfl

end RGraph

namespace RGraph

/-- `addFetchedPkg` on the synthesized "ghost" placeholder: allocates the
node `⟨nextID+1, unknownPkg "ghost"⟩`, appends it to the `new` frontier, adds
it to the graph and connects an edge from every pending parent. -/
theorem addFetchedPkg_ghost (pending : String → List Node) (g : Graph)
    (nf : List Node)
    (hg : g.hasName "ghost" = false)
    (hid : ∀ i, (g.nodeIDs i).isSome = true → i ≤ g.nextID)
    (hedges : ∀ v ∈ pending "ghost", (g.edges v.id).isSome = true) :
    ∃ g', addFetchedPkg pending (g, nf) (unknownPkg "ghost")
        = some (g', nf ++ [⟨g.nextID + 1, unknownPkg "ghost"⟩])
      ∧ g'.nodes = g.nodes ++ [⟨g.nextID + 1, unknownPkg "ghost"⟩]
      ∧ g'.names "ghost" = some ⟨g.nextID + 1, unknownPkg "ghost"⟩
      ∧ (∀ v ∈ pending "ghost",
          (g'.edgeGet v ⟨g.nextID + 1, unknownPkg "ghost"⟩).isSome = true) := by
  have hbn : ({ g with nextID := g.nextID + 1 } : Graph).hasName
      (⟨g.nextID + 1, unknownPkg "ghost"⟩ : Node).pkg.name = false := hg
  have hbh : ({ g with nextID := g.nextID + 1 } : Graph).has
      ⟨g.nextID + 1, unknownPkg "ghost"⟩ = false := by
    unfold Graph.has
    show (g.nodeIDs (g.nextID + 1)).isSome = false
    cases hnid : g.nodeIDs (g.nextID + 1) with
    | none => rfl
    | some n =>
      have := hid (g.nextID + 1) (by rw [hnid]; rfl)
      omega
  have hadd := addNode_some_eq { g with nextID := g.nextID + 1 }
    ⟨g.nextID + 1, unknownPkg "ghost"⟩ hbn hbh
  obtain ⟨pn, pe, _, _, _, pname⟩ := addNode_props _ _ _ hadd
  set g2 : Graph :=
    { g with
      nextID := g.nextID + 1
      names := fun s =>
        if s = (⟨g.nextID + 1, unknownPkg "ghost"⟩ : Node).pkg.name
        then some ⟨g.nextID + 1, unknownPkg "ghost"⟩
        else g.names s
      nodes := g.nodes ++ [⟨g.nextID + 1, unknownPkg "ghost"⟩]
      nodeIDs := fun i =>
        if i = g.nextID + 1 then some ⟨g.nextID + 1, unknownPkg "ghost"⟩
        else g.nodeIDs i
      edgesFrom := fun i => if i = g.nextID + 1 then some [] else g.edgesFrom i
      edgesTo := fun i => if i = g.nextID + 1 then some [] else g.edgesTo i
      edges := fun i => if i = g.nextID + 1 then some [] else g.edges i }
    with hg2
  have hedges2 : ∀ v ∈ pending "ghost", (g2.edges v.id).isSome = true := by
    intro v hv
    show (if v.id = g.nextID + 1 then some [] else g.edges v.id).isSome = true
    by_cases hc : v.id = g.nextID + 1
    · rw [if_pos hc]
      rfl
    · rw [if_neg hc]
      exact hedges v hv
  obtain ⟨g', hfold, hn', hm', _, _, hall'⟩ :=
    edgeFold_props (pending "ghost") g2 ⟨g.nextID + 1, unknownPkg "ghost"⟩ hedges2
  refine ⟨g', ?_, ?_, ?_, hall'⟩
  · unfold addFetchedPkg
    simp only [Graph.newNode, Graph.newNodeID]
    rw [show Graph.addNode { g with nextID := g.nextID + 1 }
        ⟨g.nextID + 1, unknownPkg "ghost"⟩ = some g2 from hadd]
    rw [Option.some_bind]
    rw [show (pending (⟨g.nextID + 1, unknownPkg "ghost"⟩ : Node).pkg.name).foldlM
        (fun (gg : Graph) v =>
          gg.addEdgeFromTo v ⟨g.nextID + 1, unknownPkg "ghost"⟩) g2
        = some g' from hfold]
    rfl
  · rw [hn']
  · rw [hm', hg2]
    simp [unknownPkg]

end RGraph

namespace RGraph

/-- **C7 amended**: if every seed depends exactly on the unresolvable name
"ghost" (not local, not sync, reported not found by AUR) and forbid-unknown
is disabled, the layer returns a graph containing exactly one node named
"ghost", whose package is the synthesized placeholder (origin `Unknown`,
empty dependency lists), with an edge recorded from every frontier node that
listed it — but, unlike the original claim, the placeholder IS appended to
the next frontier (`addFetchedPkg` appends every fetched package to `new`);
this is harmless for termination only because its dependency lists are
empty.  Exactly one AUR call is made. -/
theorem C7_amended_unknown_placeholder (seeds : List Package) (g0 : Graph)
    (lst0 : List Node)
    (hseed : seedGraph seeds = some (g0, lst0))
    (hdep : ∀ p ∈ seeds, p.depends = ["ghost"] ∧ p.makeDepends = [])
    (hname : ∀ p ∈ seeds, p.name ≠ "ghost") :
    ∃ gn g1,
      (layerStep facNone oracleGhost 0 g0 lst0).okParts = some (g1, [gn], 1)
      ∧ gn.pkg = unknownPkg "ghost"
      ∧ g1.nodeWithName "ghost" = some gn
      ∧ g1.allNodes.filter (fun n => n.pkg.name = "ghost") = [gn]
      ∧ (∀ v ∈ lst0, (g1.edgeGet v gn).isSome = true) := by
  have hempty2 : ∀ v ∈ ([] : List Node),
      ((emptyGraph : Graph).edges v.id).isSome = true := by
    intro v hv
    cases hv
  have hempty3 : ∀ name, (emptyGraph : Graph).hasName name = true →
      ∃ n ∈ ([] : List Node), n.pkg.name = name := by
    intro name h
    cases h
  have hempty4 : ∀ i, ((emptyGraph : Graph).nodeIDs i).isSome = true →
      i ≤ (emptyGraph : Graph).nextID := by
    intro i h
    cases h
  obtain ⟨snodes, ⟨tail, htail, hmap⟩, sedges, snames, sids⟩ :=
    seedFold_props seeds emptyGraph [] g0 lst0 hseed rfl hempty2 hempty3 hempty4
  rw [List.nil_append] at htail
  subst htail
  have hpkgmem : ∀ v ∈ lst0, v.pkg ∈ seeds := by
    intro v hv
    rw [← hmap]
    exact List.mem_map_of_mem _ hv
  have hg0ghost : g0.hasName "ghost" = false := by
    cases hcase : g0.hasName "ghost" with
    | false => rfl
    | true =>
      obtain ⟨n, hmem, hn⟩ := snames "ghost" hcase
      exact absurd hn (hname n.pkg (hpkgmem n hmem))
  have hdeps : ∀ v ∈ lst0, facNone.depFunc v.pkg = ["ghost"] := by
    intro v hv
    obtain ⟨hd1, hd2⟩ := hdep v.pkg (hpkgmem v hv)
    show defaultDepFunc v.pkg = ["ghost"]
    unfold defaultDepFunc
    rw [hd1, hd2]
    rfl
  obtain ⟨s', hscan, hsg, hsnf, hspend⟩ :=
    scan_all_ghost lst0 (initScan g0) hg0ghost hdeps
  have hsg' : s'.g = g0 := hsg
  have hsnf' : s'.newFrontier = ([] : List Node) := hsnf
  have hspend' : s'.pending "ghost" = lst0 := by
    rw [hspend]
    show [] ++ lst0 = lst0
    exact List.nil_append lst0
  have hedges0 : ∀ v ∈ s'.pending "ghost", (g0.edges v.id).isSome = true := by
    rw [hspend']
    exact sedges
  obtain ⟨g1, hfetch, hnodes1, hname1, hedge1⟩ :=
    addFetchedPkg_ghost s'.pending g0 [] hg0ghost sids hedges0
  refine ⟨⟨g0.nextID + 1, unknownPkg "ghost"⟩, g1, ?_, rfl, ?_, ?_, ?_⟩
  · unfold layerStep
    rw [hscan]
    simp only [oracleGhost, AURError.isNotFound, List.foldlM_cons, List.foldlM_nil]
    rw [hsg', hsnf', hfetch]
    simp [facNone, LRes.okParts]
  · exact hname1
  · rw [show g1.allNodes = g0.nodes
        ++ [(⟨g0.nextID + 1, unknownPkg "ghost"⟩ : Node)] from hnodes1,
      snodes, List.filter_append]
    have hfilter0 : lst0.filter (fun n => n.pkg.name = "ghost") = [] := by
      rw [List.filter_eq_nil_iff]
      intro n hn
      simpa using hname n.pkg (hpkgmem n hn)
    rw [hfilter0]
    simp [unknownPkg]
  · intro v hv
    exact hedge1 v (by rw [hspend']; exact hv)

end RGraph

namespace RGraph

/-- Witness for the amended C7: two seeds "p1", "p2" both depending on
"ghost". -/
theorem C7_amended_witness :
    ∃ gn g1,
      (layerStep facNone oracleGhost 0 gSeedG [⟨1, pg1⟩, ⟨2, pg2⟩]).okParts
        = some (g1, [gn], 1)
      ∧ gn.pkg = unknownPkg "ghost"
      ∧ g1.nodeWithName "ghost" = some gn
      ∧ g1.allNodes.filter (fun n => n.pkg.name = "ghost") = [gn]
      ∧ (∀ v ∈ [(⟨1, pg1⟩ : Node), ⟨2, pg2⟩], (g1.edgeGet v gn).isSome = true) :=
  C7_amended_unknown_placeholder [pg1, pg2] gSeedG [⟨1, pg1⟩, ⟨2, pg2⟩] rfl
    (by decide) (by decide)

end RGraph
